import Mathlib

/-!
Verification of the token line-wrapping core of the repository
(`src/pycheese/utils/linewrapper.py`): the token model, `split_token`
and `wrap_tokens`, embedded shallowly.  Token text is modelled as
`List Char`; the stateful `while` loop of `wrap_tokens` is modelled by
a fuel-indexed tail-recursive function (`none` = fuel exhausted, i.e.
the source loop has not finished within that many iterations).
-/

namespace LineWrapper

/-- Whitespace test for the regular-expression class `\s` used by
`re.match(r"\s+", tail_value)` in `split_token` (ASCII range). -/
def isPySpace (c : Char) : Bool :=
  c == ' ' || c == '\t' || c == '\n' || c == '\r' || c == '\x0b' || c == '\x0c'

/-- `text.rstrip("\r\n")` from the source: remove the trailing run of
carriage-return and line-feed characters. -/
def rstripCRLF (s : List Char) : List Char :=
  (s.reverse.dropWhile (fun c => c == '\r' || c == '\n')).reverse

/-- `len(text.rstrip("\r\n"))`: the printable length the source computes. -/
def printableLen (s : List Char) : Nat := (rstripCRLF s).length

/-- A token tuple `(value, color, style, tok_type, printable_len)` of the
source, as a record.  `category` stands for the pygments token type, which
is opaque to the wrapping core. -/
structure Tok where
  text : List Char
  color : String
  emphasis : String
  category : String
  printable_length : Nat
deriving DecidableEq

/-- The synthetic line-break token
`("\n", "f8f8f2", "regular", Token.Text.Whitespace, 0)` from `split_token`. -/
def newline_token : Tok :=
  ⟨['\n'], "f8f8f2", "regular", "Text.Whitespace", 0⟩

/-- `split_token(token, pos)` from the source.  `pos` is an `Int` because the
source accepts (and rejects) negative positions.  A raised `ValueError` is
modelled as `Except.error`. -/
def split_token (token : Tok) (pos : Int) : Except String (List Tok) :=
  let max_pos : Int := max 0 ((token.printable_length : Int) - 1)
  if pos < 0 ∨ max_pos < pos then
    Except.error "Cannot split token at pos: out of range"
  else if token.printable_length = 0 then
    -- don't split tokens with 0 printable length
    Except.ok [token]
  else
    let p := pos.toNat
    let head_value := token.text.take p
    let tail_value := token.text.drop p
    let head_printable_len := printableLen head_value
    let tail_printable_len := printableLen tail_value
    -- add leading spaces of tail token to end of head token
    let leading_spaces := tail_value.takeWhile isPySpace
    let head_value2 := head_value ++ leading_spaces
    let tail_value2 := tail_value.drop leading_spaces.length
    -- remove tokens with empty values
    Except.ok (List.filter (fun t => !t.text.isEmpty)
      [⟨head_value2, token.color, token.emphasis, token.category, head_printable_len⟩,
       newline_token,
       ⟨tail_value2, token.color, token.emphasis, token.category, tail_printable_len⟩])

/-- The head token built inside `split_token` (for stating lemmas). -/
def head_token (token : Tok) (p : Nat) : Tok :=
  ⟨token.text.take p ++ (token.text.drop p).takeWhile isPySpace,
   token.color, token.emphasis, token.category, printableLen (token.text.take p)⟩

/-- The tail token built inside `split_token` (for stating lemmas). -/
def tail_token (token : Tok) (p : Nat) : Tok :=
  ⟨(token.text.drop p).drop ((token.text.drop p).takeWhile isPySpace).length,
   token.color, token.emphasis, token.category, printableLen (token.text.drop p)⟩

/-- The loop of `wrap_tokens`, fuel-indexed.  The source pops from a reversed
list and re-extends it with `tail[::-1]`; that stack is modelled as a queue
whose front is the next token to be considered.  `none` means the loop did
not finish within `fuel` iterations. -/
def wrapLoop (width : Int) :
    Nat → List Tok → List Tok → List (List Tok) → Nat →
    Option (Except String (List (List Tok)))
  | 0, _, _, _, _ => none
  | _ + 1, [], single_row, rows, _ =>
      some (Except.ok (rows ++ if single_row.isEmpty then [] else [single_row]))
  | fuel + 1, token :: rest, single_row, rows, char_count =>
      if (char_count : Int) + token.printable_length > width then
        match split_token token (width - char_count) with
        | Except.error e => some (Except.error e)
        | Except.ok [] => some (Except.error "cannot unpack empty split result")
        | Except.ok (head :: tail) =>
            wrapLoop width fuel (tail ++ rest) (single_row ++ [head]) rows
              (char_count + head.printable_length)
      else
        if token.text = ['\n'] then
          wrapLoop width fuel rest [] (rows ++ [single_row ++ [token]]) 0
        else
          wrapLoop width fuel rest (single_row ++ [token]) rows
            (char_count + token.printable_length)

/-- `wrap_tokens(tokens, width)` from the source, with explicit fuel. -/
def wrap_tokens (tokens : List Tok) (width : Int) (fuel : Nat) :
    Option (Except String (List (List Tok))) :=
  wrapLoop width fuel tokens [] [] 0

/-- Sum of the stored printable lengths of a row (the quantity tracked by
`char_count`). -/
def rowLen (r : List Tok) : Nat := (r.map Tok.printable_length).sum

/-- Concatenated text of a token list. -/
def textOf (ts : List Tok) : List Char := (ts.map Tok.text).flatten

/-- The non-newline characters of a character list, in order. -/
def nonNl (s : List Char) : List Char := s.filter (fun c => c != '\n')

/-! ### Basic facts about the printable-length computation -/

theorem printableLen_le_length (s : List Char) : printableLen s ≤ s.length := by
  have h : (s.reverse.dropWhile (fun c => c == '\r' || c == '\n')).length ≤
      s.reverse.length := (List.dropWhile_sublist _).length_le
  simpa [printableLen, rstripCRLF] using h

theorem printableLen_take_le (s : List Char) (p : Nat) :
    printableLen (s.take p) ≤ p := by
  calc printableLen (s.take p) ≤ (s.take p).length := printableLen_le_length _
    _ ≤ p := by simp [List.length_take]

theorem printableLen_pos (c : Char) (s : List Char)
    (h : (c == '\r' || c == '\n') = false) : 1 ≤ printableLen (c :: s) := by
  by_contra hle
  have h0 : printableLen (c :: s) = 0 := by omega
  have h2 : ∀ (x : Char), x ∈ s ∨ x = c → x = '\r' ∨ x = '\n' := by
    simpa [printableLen, rstripCRLF, List.length_eq_zero] using h0
  have h3 := h2 c (Or.inr rfl)
  simp only [Bool.or_eq_false_iff, beq_eq_false_iff_ne, ne_eq] at h
  rcases h3 with h' | h'
  · exact h.1 h'
  · exact h.2 h'

/-! ### Unfolding lemmas for `split_token` -/

theorem split_token_of_invalid (token : Tok) (pos : Int)
    (h : pos < 0 ∨ max 0 ((token.printable_length : Int) - 1) < pos) :
    split_token token pos = Except.error "Cannot split token at pos: out of range" := by
  rw [split_token, if_pos h]

theorem split_token_of_zero (token : Tok) (pos : Int)
    (h : ¬(pos < 0 ∨ max 0 ((token.printable_length : Int) - 1) < pos))
    (h0 : token.printable_length = 0) :
    split_token token pos = Except.ok [token] := by
  rw [split_token, if_neg h, if_pos h0]

theorem split_token_of_pos (token : Tok) (pos : Int)
    (h : ¬(pos < 0 ∨ max 0 ((token.printable_length : Int) - 1) < pos))
    (h0 : ¬token.printable_length = 0) :
    split_token token pos = Except.ok (List.filter (fun t => !t.text.isEmpty)
      [head_token token pos.toNat, newline_token, tail_token token pos.toNat]) := by
  rw [split_token, if_neg h, if_neg h0]
  rfl

theorem split_token_ok_cases (token : Tok) (pos : Int) (out : List Tok)
    (h : split_token token pos = Except.ok out) :
    (token.printable_length = 0 ∧ out = [token]) ∨
    (token.printable_length ≠ 0 ∧ 0 ≤ pos ∧
      (pos : Int) ≤ max 0 ((token.printable_length : Int) - 1) ∧
      out = List.filter (fun t => !t.text.isEmpty)
        [head_token token pos.toNat, newline_token, tail_token token pos.toNat]) := by
  by_cases hv : pos < 0 ∨ max 0 ((token.printable_length : Int) - 1) < pos
  · rw [split_token_of_invalid token pos hv] at h
    exact absurd h (by simp)
  · push_neg at hv
    by_cases h0 : token.printable_length = 0
    · rw [split_token_of_zero token pos (by push_neg; exact hv) h0] at h
      exact Or.inl ⟨h0, by simpa using h.symm⟩
    · rw [split_token_of_pos token pos (by push_neg; exact hv) h0] at h
      exact Or.inr ⟨h0, hv.1, hv.2, by simpa using h.symm⟩

theorem filter_split_parts (token : Tok) (p : Nat) :
    List.filter (fun t => !t.text.isEmpty)
      [head_token token p, newline_token, tail_token token p]
    = (if (head_token token p).text = [] then [] else [head_token token p]) ++
      [newline_token] ++
      (if (tail_token token p).text = [] then [] else [tail_token token p]) := by
  have b1 : (head_token token p).text.isEmpty = decide ((head_token token p).text = []) := by
    cases (head_token token p).text <;> simp
  have b2 : (tail_token token p).text.isEmpty = decide ((tail_token token p).text = []) := by
    cases (tail_token token p).text <;> simp
  by_cases h1 : (head_token token p).text = [] <;>
    by_cases h2 : (tail_token token p).text = [] <;>
      simp [List.filter, b1, b2, h1, h2, newline_token]

/-! ### Step lemmas for the `wrap_tokens` loop -/

theorem wrapLoop_nil (width : Int) (fuel : Nat) (row : List Tok)
    (rows : List (List Tok)) (count : Nat) :
    wrapLoop width (fuel + 1) [] row rows count
      = some (Except.ok (rows ++ if row.isEmpty then [] else [row])) := rfl

theorem wrapLoop_split (width : Int) (fuel : Nat) (token : Tok) (rest row : List Tok)
    (rows : List (List Tok)) (count : Nat) (head : Tok) (tail : List Tok)
    (hg : (count : Int) + token.printable_length > width)
    (hs : split_token token (width - count) = Except.ok (head :: tail)) :
    wrapLoop width (fuel + 1) (token :: rest) row rows count
      = wrapLoop width fuel (tail ++ rest) (row ++ [head]) rows
          (count + head.printable_length) := by
  simp only [wrapLoop]
  rw [if_pos hg, hs]

theorem wrapLoop_close (width : Int) (fuel : Nat) (token : Tok) (rest row : List Tok)
    (rows : List (List Tok)) (count : Nat)
    (hg : ¬((count : Int) + token.printable_length > width))
    (hn : token.text = ['\n']) :
    wrapLoop width (fuel + 1) (token :: rest) row rows count
      = wrapLoop width fuel rest [] (rows ++ [row ++ [token]]) 0 := by
  simp only [wrapLoop]
  rw [if_neg hg, if_pos hn]

theorem wrapLoop_fit (width : Int) (fuel : Nat) (token : Tok) (rest row : List Tok)
    (rows : List (List Tok)) (count : Nat)
    (hg : ¬((count : Int) + token.printable_length > width))
    (hn : ¬token.text = ['\n']) :
    wrapLoop width (fuel + 1) (token :: rest) row rows count
      = wrapLoop width fuel rest (row ++ [token]) rows
          (count + token.printable_length) := by
  simp only [wrapLoop]
  rw [if_neg hg, if_neg hn]

theorem wrapLoop_split_error (width : Int) (fuel : Nat) (token : Tok)
    (rest row : List Tok) (rows : List (List Tok)) (count : Nat) (e : String)
    (hg : (count : Int) + token.printable_length > width)
    (hs : split_token token (width - count) = Except.error e) :
    wrapLoop width (fuel + 1) (token :: rest) row rows count
      = some (Except.error e) := by
  simp only [wrapLoop]
  rw [if_pos hg, hs]

theorem wrapLoop_split_empty (width : Int) (fuel : Nat) (token : Tok)
    (rest row : List Tok) (rows : List (List Tok)) (count : Nat)
    (hg : (count : Int) + token.printable_length > width)
    (hs : split_token token (width - count) = Except.ok []) :
    wrapLoop width (fuel + 1) (token :: rest) row rows count
      = some (Except.error "cannot unpack empty split result") := by
  simp only [wrapLoop]
  rw [if_pos hg, hs]

theorem rowLen_append (a b : List Tok) : rowLen (a ++ b) = rowLen a + rowLen b := by
  simp [rowLen]

theorem rowLen_singleton (t : Tok) : rowLen [t] = t.printable_length := by
  simp [rowLen]

theorem rowLen_cons (t : Tok) (ts : List Tok) :
    rowLen (t :: ts) = t.printable_length + rowLen ts := by
  simp [rowLen]

/-! ### Further consequences of `split_token`'s definition -/

theorem crlf_false_of_not_space (c : Char) (h : isPySpace c = false) :
    (c == '\r' || c == '\n') = false := by
  simp only [isPySpace, Bool.or_eq_false_iff] at h
  simp only [Bool.or_eq_false_iff]
  exact ⟨h.1.1.2, h.1.1.1.2⟩

theorem takeWhile_head_false (c : Char) (s : List Char) (p : Char → Bool)
    (h : (c :: s).takeWhile p = []) : p c = false := by
  by_cases hc : p c = true
  · rw [List.takeWhile_cons, if_pos hc] at h
    exact absurd h (by simp)
  · simpa using hc

/-- The first token of any successful split has printable length at most
`pos.toNat`: relocated whitespace never counts. -/
theorem split_head_le (token : Tok) (pos : Int) (head : Tok) (tail : List Tok)
    (h : split_token token pos = Except.ok (head :: tail)) :
    head.printable_length ≤ pos.toNat := by
  rcases split_token_ok_cases token pos _ h with ⟨h0, he⟩ | ⟨h0, hpos, hmax, he⟩
  · have hht : head = token := by
      simpa using congrArg (fun l => l.head?) he
    rw [hht, h0]
    exact Nat.zero_le _
  · rw [filter_split_parts] at he
    by_cases hh : (head_token token pos.toNat).text = []
    · rw [if_pos hh] at he
      have : head = newline_token := by
        simpa using congrArg (fun l => l.head?) he
      rw [this]
      exact Nat.zero_le _
    · rw [if_neg hh] at he
      have : head = head_token token pos.toNat := by
        simpa using congrArg (fun l => l.head?) he
      rw [this]
      exact printableLen_take_le _ _

/-- Concrete tokens used as test inputs below. -/
def import_tok : Tok := ⟨"import".toList, "ff4689", "regular", "Keyword.Namespace", 6⟩

def relocation_tok : Tok := ⟨"a b".toList, "c0", "regular", "Name", 3⟩

/-- Claim C6: `split_token` fails with the out-of-range error exactly when
`pos < 0` or `pos > max(0, printable_length - 1)`; on failure only the error
is produced.  In particular the 6-printable-character token `"import"` cannot
be split at `pos = 6`. -/
theorem claim_C6_split_range :
    (∀ (token : Tok) (pos : Int),
      (∃ e, split_token token pos = Except.error e) ↔
        (pos < 0 ∨ max 0 ((token.printable_length : Int) - 1) < pos)) ∧
    (∃ e, split_token import_tok 6 = Except.error e) := by
  constructor
  · intro token pos
    constructor
    · rintro ⟨e, he⟩
      by_contra hv
      by_cases h0 : token.printable_length = 0
      · rw [split_token_of_zero token pos hv h0] at he
        exact absurd he (by simp)
      · rw [split_token_of_pos token pos hv h0] at he
        exact absurd he (by simp)
    · intro hv
      exact ⟨_, split_token_of_invalid token pos hv⟩
  · exact ⟨"Cannot split token at pos: out of range", rfl⟩

/-- Claim C7: for a valid position, `split_token` returns an ordered list of
1 to 3 tokens.  A zero-printable-length token comes back unchanged; otherwise
the result is the head token, the synthetic line-break token and the tail
token in this order (head and tail carrying the input's color, emphasis and
category, see `head_token` and `tail_token`), with empty-text tokens dropped,
and the line-break token is always present. -/
theorem claim_C7_split_contract (token : Tok) (pos : Int)
    (hv : ¬(pos < 0 ∨ max 0 ((token.printable_length : Int) - 1) < pos)) :
    ∃ out, split_token token pos = Except.ok out ∧
      1 ≤ out.length ∧ out.length ≤ 3 ∧
      (token.printable_length = 0 → out = [token]) ∧
      (token.printable_length ≠ 0 →
        out = (if (head_token token pos.toNat).text = []
               then [] else [head_token token pos.toNat]) ++ [newline_token] ++
              (if (tail_token token pos.toNat).text = []
               then [] else [tail_token token pos.toNat]) ∧
        newline_token ∈ out) := by
  by_cases h0 : token.printable_length = 0
  · refine ⟨[token], split_token_of_zero token pos hv h0, by simp, by simp,
      fun _ => rfl, fun h => absurd h0 h⟩
  · refine ⟨_, split_token_of_pos token pos hv h0, ?_, ?_, fun h => absurd h h0,
      fun _ => ⟨filter_split_parts token pos.toNat, ?_⟩⟩
    · rw [filter_split_parts]
      by_cases h1 : (head_token token pos.toNat).text = [] <;>
        by_cases h2 : (tail_token token pos.toNat).text = [] <;>
          simp [h1, h2]
    · rw [filter_split_parts]
      by_cases h1 : (head_token token pos.toNat).text = [] <;>
        by_cases h2 : (tail_token token pos.toNat).text = [] <;>
          simp [h1, h2]
    · rw [filter_split_parts]
      by_cases h1 : (head_token token pos.toNat).text = [] <;>
        by_cases h2 : (tail_token token pos.toNat).text = [] <;>
          simp [h1, h2]

/-- Witness for claim C7 at `split_token("import", 0)`, the example from the
specification: the result is the line-break token followed by the original
token text. -/
theorem claim_C7_witness :
    ∃ out, split_token import_tok 0 = Except.ok out ∧
      1 ≤ out.length ∧ out.length ≤ 3 ∧
      (import_tok.printable_length = 0 → out = [import_tok]) ∧
      (import_tok.printable_length ≠ 0 →
        out = (if (head_token import_tok (0 : Int).toNat).text = []
               then [] else [head_token import_tok (0 : Int).toNat]) ++ [newline_token] ++
              (if (tail_token import_tok (0 : Int).toNat).text = []
               then [] else [tail_token import_tok (0 : Int).toNat]) ∧
        newline_token ∈ out) :=
  claim_C7_split_contract import_tok 0 (by decide)

/-- Claim C10: the head token emitted by a split has printable length equal
to `len(text[:pos].rstrip("\r\n"))`, computed before whitespace relocation,
and therefore never exceeding `pos`. -/
theorem claim_C10_head_printable (token : Tok) (pos : Nat)
    (h1 : 1 ≤ token.printable_length) (h2 : pos ≤ token.printable_length - 1) :
    ∃ head rest, split_token token (pos : Int) = Except.ok (head :: rest) ∧
      head.printable_length = printableLen (token.text.take pos) ∧
      head.printable_length ≤ pos := by
  have hv : ¬((pos : Int) < 0 ∨
      max 0 ((token.printable_length : Int) - 1) < (pos : Int)) := by
    push_neg
    refine ⟨by positivity, ?_⟩
    have : (pos : Int) ≤ (token.printable_length : Int) - 1 := by omega
    omega
  have h0 : token.printable_length ≠ 0 := by omega
  rw [split_token_of_pos token pos hv h0, filter_split_parts]
  have hp : ((pos : Int)).toNat = pos := Int.toNat_natCast pos
  rw [hp]
  by_cases hh : (head_token token pos).text = []
  · have hcat : token.text.take pos ++ (token.text.drop pos).takeWhile isPySpace = [] := hh
    rcases List.append_eq_nil.mp hcat with ⟨ht, -⟩
    rw [if_pos hh]
    refine ⟨newline_token, _, rfl, ?_, Nat.zero_le _⟩
    rw [ht]
    rfl
  · rw [if_neg hh]
    exact ⟨head_token token pos, _, rfl, rfl, printableLen_take_le token.text pos⟩

/-- Witness for claim C10 at the token `"a b"` split at `pos = 1`. -/
theorem claim_C10_witness :
    ∃ head rest, split_token relocation_tok ((1 : Nat) : Int) = Except.ok (head :: rest) ∧
      head.printable_length = printableLen (relocation_tok.text.take 1) ∧
      head.printable_length ≤ 1 :=
  claim_C10_head_printable relocation_tok 1 (by decide) (by decide)

/-- Claim C3 counterexample: splitting `("a b", printable_length 3)` at
`pos = 1` relocates the space of the tail onto the head, whose text becomes
`"a "`, yet the head token's printable_length stays 1 — the value computed
from `text[:pos]` before relocation — while the printable length of the
relocated text `"a "` is 2.  The head's printable_length is therefore not
recomputed to reflect the relocated whitespace. -/
theorem claim_C3_cex :
    split_token relocation_tok 1 = Except.ok
      [⟨"a ".toList, "c0", "regular", "Name", 1⟩, newline_token,
       ⟨"b".toList, "c0", "regular", "Name", 2⟩] ∧
    printableLen "a ".toList = 2 ∧ (1 : Nat) ≠ printableLen "a ".toList := by
  refine ⟨rfl, rfl, by decide⟩

/-- Claim C3 as amended: if `tail_text` begins with whitespace, `split_token`
moves that entire leading whitespace run to the end of the head's text, but
the head token's printable_length keeps the value computed from `text[:pos]`
before relocation; relocated whitespace contributes zero to it. -/
theorem claim_C3_amended (token : Tok) (pos : Nat)
    (h1 : 1 ≤ token.printable_length) (h2 : pos ≤ token.printable_length - 1)
    (h3 : (token.text.drop pos).takeWhile isPySpace ≠ []) :
    ∃ rest, split_token token (pos : Int) = Except.ok
      (⟨token.text.take pos ++ (token.text.drop pos).takeWhile isPySpace,
        token.color, token.emphasis, token.category,
        printableLen (token.text.take pos)⟩ :: rest) := by
  have hv : ¬((pos : Int) < 0 ∨
      max 0 ((token.printable_length : Int) - 1) < (pos : Int)) := by
    push_neg
    refine ⟨by positivity, ?_⟩
    have : (pos : Int) ≤ (token.printable_length : Int) - 1 := by omega
    omega
  have h0 : token.printable_length ≠ 0 := by omega
  rw [split_token_of_pos token pos hv h0, filter_split_parts]
  have hp : ((pos : Int)).toNat = pos := Int.toNat_natCast pos
  rw [hp]
  have hh : ¬(head_token token pos).text = [] := by
    intro hcon
    have hcat : token.text.take pos ++ (token.text.drop pos).takeWhile isPySpace = [] := hcon
    rcases List.append_eq_nil.mp hcat with ⟨-, ht⟩
    exact h3 ht
  rw [if_neg hh]
  exact ⟨newline_token ::
      (if (tail_token token pos).text = [] then [] else [tail_token token pos]), rfl⟩

/-- Witness for the amended claim C3 at the token `"a b"`, `pos = 1`. -/
theorem claim_C3_witness :
    ∃ rest, split_token relocation_tok ((1 : Nat) : Int) = Except.ok
      (⟨relocation_tok.text.take 1 ++ (relocation_tok.text.drop 1).takeWhile isPySpace,
        relocation_tok.color, relocation_tok.emphasis, relocation_tok.category,
        printableLen (relocation_tok.text.take 1)⟩ :: rest) :=
  claim_C3_amended relocation_tok 1 (by decide) (by decide) (by decide)

/-- Claim C2 (refuted by the code): `wrap_tokens` contains no width
validation at all.  At `width = 0` it returns rows normally — here for the
input `[newline_token]` and for the empty input — instead of failing for
every token list. -/
theorem claim_C2_width_zero_not_rejected :
    wrap_tokens [newline_token] 0 2 = some (Except.ok [[newline_token]]) ∧
    wrap_tokens ([] : List Tok) 0 1 = some (Except.ok []) :=
  ⟨rfl, rfl⟩

/-! ### Non-termination of the wrap loop at `pos = 0` -/

/-- When the running counter has reached `width` exactly and the next token
has at least one printable character, text that does not start with
whitespace and is non-empty, the loop re-splits at `pos = 0` forever: the
split returns the line-break token followed by the unchanged text, the
line-break head does not advance `char_count`, and the state repeats. -/
theorem wrap_stuck (width : Int) :
    ∀ (fuel : Nat) (token : Tok) (rest row : List Tok) (rows : List (List Tok))
      (count : Nat),
      (count : Int) = width →
      token.text.takeWhile isPySpace = [] →
      1 ≤ token.printable_length →
      token.text ≠ [] →
      wrapLoop width fuel (token :: rest) row rows count = none := by
  intro fuel
  induction fuel with
  | zero => intro token rest row rows count _ _ _ _; rfl
  | succ fuel ih =>
    intro token rest row rows count hcw hws hpl hne
    have hg : (count : Int) + token.printable_length > width := by omega
    have hpos : width - (count : Int) = 0 := by omega
    have hv : ¬(width - (count : Int) < 0 ∨
        max 0 ((token.printable_length : Int) - 1) < width - (count : Int)) := by
      rw [hpos]
      push_neg
      exact ⟨le_refl 0, le_max_left 0 _⟩
    have h0 : token.printable_length ≠ 0 := by omega
    have htt : tail_token token 0 =
        ⟨token.text, token.color, token.emphasis, token.category,
          printableLen token.text⟩ := by
      simp [tail_token, hws]
    have hsplit : split_token token (width - count) = Except.ok
        [newline_token,
         ⟨token.text, token.color, token.emphasis, token.category,
          printableLen token.text⟩] := by
      rw [split_token_of_pos token _ hv h0, filter_split_parts]
      have hpz : (width - (count : Int)).toNat = 0 := by rw [hpos]; rfl
      rw [hpz]
      have hh : (head_token token 0).text = [] := by
        show token.text.take 0 ++ (token.text.drop 0).takeWhile isPySpace = []
        simp [hws]
      have ht : ¬(tail_token token 0).text = [] := by
        rw [htt]
        exact hne
      rw [if_pos hh, if_neg ht, htt]
      rfl
    rw [wrapLoop_split width fuel token rest row rows count newline_token
      [⟨token.text, token.color, token.emphasis, token.category,
        printableLen token.text⟩] hg hsplit]
    obtain ⟨c, s, hcs⟩ : ∃ c s, token.text = c :: s := by
      cases h : token.text with
      | nil => exact absurd h hne
      | cons c s => exact ⟨c, s, rfl⟩
    have hc : isPySpace c = false :=
      takeWhile_head_false c s isPySpace (by rw [hcs] at hws; exact hws)
    have hlen1 : 1 ≤ printableLen token.text := by
      rw [hcs]
      exact printableLen_pos c s (crlf_false_of_not_space c hc)
    exact ih ⟨token.text, token.color, token.emphasis, token.category,
        printableLen token.text⟩ rest (row ++ [newline_token]) rows count
      hcw hws hlen1 hne

/-- The two tokens of the stress case: the first fills the row exactly to
`width = 1`, the second then forces a split at `pos = 0`. -/
def fill_tok : Tok := ⟨['a'], "c0", "regular", "Name", 1⟩

def stuck_tok : Tok := ⟨['b'], "c0", "regular", "Name", 1⟩

/-- Claim C1 (refuted by the code): `wrap_tokens` does not terminate on every
token list with `width ≥ 1`.  On a row already filled to exactly `width`
followed by a further token — the claim's own stress case — the loop
re-splits at `pos = 0` without advancing, so no amount of fuel makes it
return. -/
theorem claim_C1_wrap_nonterminating :
    ∀ fuel, wrap_tokens [fill_tok, stuck_tok] 1 fuel = none := by
  intro fuel
  match fuel with
  | 0 => rfl
  | fuel + 1 =>
    rw [wrap_tokens, wrapLoop_fit 1 fuel fill_tok [stuck_tok] [] [] 0
      (by decide) (by decide)]
    exact wrap_stuck 1 fuel stuck_tok [] [fill_tok] [] 1
      (by decide) (by decide) (by decide) (by decide)

/-! ### The width bound on produced rows -/

/-- Loop invariant: the running counter never exceeds `width`, it equals the
printable length of the pending row, and every already-closed row obeys the
bound; hence so does every row of a successful result. -/
theorem wrap_bound_inv (width : Int) :
    ∀ (fuel : Nat) (queue row : List Tok) (rows out : List (List Tok))
      (count : Nat),
      (count : Int) ≤ width →
      rowLen row = count →
      (∀ r ∈ rows, (rowLen r : Int) ≤ width) →
      wrapLoop width fuel queue row rows count = some (Except.ok out) →
      ∀ r ∈ out, (rowLen r : Int) ≤ width := by
  intro fuel
  induction fuel with
  | zero =>
    intro queue row rows out count _ _ _ h
    exact absurd h (by simp [wrapLoop])
  | succ fuel ih =>
    intro queue row rows out count hcw hrc hrows h
    cases queue with
    | nil =>
      rw [wrapLoop_nil] at h
      have hout : rows ++ (if row.isEmpty then [] else [row]) = out := by
        have := Option.some.inj h
        exact Except.ok.inj this
      intro r hr
      rw [← hout] at hr
      rcases List.mem_append.mp hr with hr | hr
      · exact hrows r hr
      · by_cases hrow : row.isEmpty
        · rw [if_pos hrow] at hr
          exact absurd hr (by simp)
        · rw [if_neg hrow] at hr
          have : r = row := by simpa using hr
          rw [this, hrc]
          exact hcw
    | cons token rest =>
      by_cases hg : (count : Int) + token.printable_length > width
      · cases hs : split_token token (width - count) with
        | error e =>
          rw [wrapLoop_split_error width fuel token rest row rows count e hg hs] at h
          exact absurd (Option.some.inj h) (by simp)
        | ok outs =>
          cases outs with
          | nil =>
            rw [wrapLoop_split_empty width fuel token rest row rows count hg hs] at h
            exact absurd (Option.some.inj h) (by simp)
          | cons head tail =>
            rw [wrapLoop_split width fuel token rest row rows count head tail hg hs] at h
            have hhd := split_head_le token (width - count) head tail hs
            have htn : ((width - (count : Int)).toNat : Int) = width - count :=
              Int.toNat_of_nonneg (by omega)
            refine ih (tail ++ rest) (row ++ [head]) rows out
              (count + head.printable_length) (by omega) ?_ hrows h
            rw [rowLen_append, rowLen_singleton, hrc]
      · by_cases hn : token.text = ['\n']
        · rw [wrapLoop_close width fuel token rest row rows count hg hn] at h
          refine ih rest [] (rows ++ [row ++ [token]]) out 0 (by omega) rfl ?_ h
          intro r hr
          rcases List.mem_append.mp hr with hr | hr
          · exact hrows r hr
          · have : r = row ++ [token] := by simpa using hr
            rw [this, rowLen_append, rowLen_singleton, hrc]
            omega
        · rw [wrapLoop_fit width fuel token rest row rows count hg hn] at h
          refine ih rest (row ++ [token]) rows out
            (count + token.printable_length) (by omega) ?_ hrows h
          rw [rowLen_append, rowLen_singleton, hrc]

/-- Claim C4: every row of a successful `wrap_tokens` run has total stored
printable length at most `width` — in fact with no exception: whitespace
relocation only lengthens a row's text, never the stored printable lengths
the claim sums. -/
theorem claim_C4_width_bound (tokens : List Tok) (width : Int) (fuel : Nat)
    (rows : List (List Tok)) (hw : 1 ≤ width)
    (h : wrap_tokens tokens width fuel = some (Except.ok rows)) :
    ∀ r ∈ rows, (rowLen r : Int) ≤ width :=
  wrap_bound_inv width fuel tokens [] [] rows 0 (by omega) rfl (by simp) h

/-- Witness for claim C4: wrapping `[import_tok]` at width 10 returns one row
of printable length 6 ≤ 10. -/
theorem claim_C4_witness :
    wrap_tokens [import_tok] 10 2 = some (Except.ok [[import_tok]]) ∧
    ∀ r ∈ [[import_tok]], (rowLen r : Int) ≤ 10 :=
  ⟨rfl, claim_C4_width_bound [import_tok] 10 2 [[import_tok]] (by norm_num) rfl⟩

/-! ### Preservation of the non-newline characters -/

theorem takeWhile_append_drop (l : List Char) (p : Char → Bool) :
    l.takeWhile p ++ l.drop (l.takeWhile p).length = l := by
  induction l with
  | nil => rfl
  | cons a l ih =>
    by_cases h : p a
    · simp [List.takeWhile_cons, h, ih]
    · simp [List.takeWhile_cons, h]

theorem nonNl_append (a b : List Char) : nonNl (a ++ b) = nonNl a ++ nonNl b := by
  simp [nonNl]

theorem textOf_append (a b : List Tok) : textOf (a ++ b) = textOf a ++ textOf b := by
  simp [textOf]

theorem textOf_cons (t : Tok) (ts : List Tok) : textOf (t :: ts) = t.text ++ textOf ts := by
  simp [textOf]

theorem textOf_nil : textOf [] = [] := rfl

theorem nonNl_nil : nonNl [] = [] := rfl

/-- Any successful split preserves the non-newline characters of the token's
text, in order: the split only cuts the text and inserts a `"\n"`. -/
theorem split_nonNl (token : Tok) (pos : Int) (out : List Tok)
    (h : split_token token pos = Except.ok out) :
    nonNl (textOf out) = nonNl token.text := by
  rcases split_token_ok_cases token pos out h with ⟨-, he⟩ | ⟨-, -, -, he⟩
  · rw [he]
    simp [textOf]
  · rw [he, filter_split_parts]
    have t1 : textOf (if (head_token token pos.toNat).text = []
        then [] else [head_token token pos.toNat]) = (head_token token pos.toNat).text := by
      by_cases hc : (head_token token pos.toNat).text = []
      · rw [if_pos hc, hc]
        rfl
      · rw [if_neg hc]
        simp [textOf]
    have t2 : textOf (if (tail_token token pos.toNat).text = []
        then [] else [tail_token token pos.toNat]) = (tail_token token pos.toNat).text := by
      by_cases hc : (tail_token token pos.toNat).text = []
      · rw [if_pos hc, hc]
        rfl
      · rw [if_neg hc]
        simp [textOf]
    rw [textOf_append, textOf_append, t1, t2]
    have tnl : textOf [newline_token] = ['\n'] := by simp [textOf, newline_token]
    rw [tnl]
    show nonNl ((token.text.take pos.toNat ++
        (token.text.drop pos.toNat).takeWhile isPySpace) ++ ['\n'] ++
        ((token.text.drop pos.toNat).drop
          ((token.text.drop pos.toNat).takeWhile isPySpace).length)) = nonNl token.text
    have hnl : nonNl ['\n'] = [] := rfl
    simp only [nonNl_append, hnl, List.append_nil, List.nil_append, List.append_assoc]
    rw [← nonNl_append ((token.text.drop pos.toNat).takeWhile isPySpace) _,
      takeWhile_append_drop (token.text.drop pos.toNat) isPySpace,
      ← nonNl_append, List.take_append_drop]

/-- Loop invariant: at every point the non-newline characters of the closed
rows, the pending row and the remaining queue, in this order, are exactly
those of the original input. -/
theorem wrap_chars_inv (width : Int) :
    ∀ (fuel : Nat) (queue row : List Tok) (rows out : List (List Tok))
      (count : Nat),
      wrapLoop width fuel queue row rows count = some (Except.ok out) →
      nonNl (textOf out.flatten)
        = nonNl (textOf rows.flatten) ++ nonNl (textOf row) ++ nonNl (textOf queue) := by
  intro fuel
  induction fuel with
  | zero =>
    intro queue row rows out count h
    exact absurd h (by simp [wrapLoop])
  | succ fuel ih =>
    intro queue row rows out count h
    cases queue with
    | nil =>
      rw [wrapLoop_nil] at h
      have hout : rows ++ (if row.isEmpty then [] else [row]) = out := by
        have := Option.some.inj h
        exact Except.ok.inj this
      rw [← hout]
      by_cases hrow : row.isEmpty
      · have : row = [] := by simpa using hrow
        rw [if_pos hrow, this]
        simp [textOf_nil, nonNl_nil, textOf, nonNl]
      · rw [if_neg hrow]
        simp [textOf_append, nonNl_append, textOf, textOf_nil, nonNl_nil, nonNl]
    | cons token rest =>
      by_cases hg : (count : Int) + token.printable_length > width
      · cases hs : split_token token (width - count) with
        | error e =>
          rw [wrapLoop_split_error width fuel token rest row rows count e hg hs] at h
          exact absurd (Option.some.inj h) (by simp)
        | ok outs =>
          cases outs with
          | nil =>
            rw [wrapLoop_split_empty width fuel token rest row rows count hg hs] at h
            exact absurd (Option.some.inj h) (by simp)
          | cons head tail =>
            rw [wrapLoop_split width fuel token rest row rows count head tail hg hs] at h
            have hrec := ih (tail ++ rest) (row ++ [head]) rows out
              (count + head.printable_length) h
            have hsn : nonNl (textOf (head :: tail)) = nonNl token.text :=
              split_nonNl token (width - count) (head :: tail) hs
            rw [textOf_cons, nonNl_append] at hsn
            rw [hrec]
            simp only [textOf_append, textOf_cons, textOf_nil, nonNl_append, nonNl_nil,
              List.append_assoc, List.append_nil]
            rw [← hsn]
            simp [List.append_assoc]
      · by_cases hn : token.text = ['\n']
        · rw [wrapLoop_close width fuel token rest row rows count hg hn] at h
          have hrec := ih rest [] (rows ++ [row ++ [token]]) out 0 h
          rw [hrec]
          simp [textOf_append, nonNl_append, textOf_cons, hn, textOf]
          rfl
        · rw [wrapLoop_fit width fuel token rest row rows count hg hn] at h
          have hrec := ih rest (row ++ [token]) rows out
            (count + token.printable_length) h
          rw [hrec]
          simp [textOf_append, nonNl_append, textOf_cons, List.append_assoc,
            textOf_nil, nonNl_nil]

/-- Claim C5: for every successful `wrap_tokens` run, the concatenated text
of all output rows, in row order then token order, has exactly the same
non-newline characters, in the same order, as the concatenated input text —
the inserted tokens are all the pure `"\n"` line-break token, so the
non-newline character sequence (hence multiset) is preserved. -/
theorem claim_C5_char_preservation (tokens : List Tok) (width : Int)
    (fuel : Nat) (rows : List (List Tok))
    (h : wrap_tokens tokens width fuel = some (Except.ok rows)) :
    nonNl (textOf rows.flatten) = nonNl (textOf tokens) := by
  have := wrap_chars_inv width fuel tokens [] [] rows 0 h
  simpa [textOf, nonNl] using this

/-- Witness for claim C5 at `wrap_tokens([import_tok], 10)`. -/
theorem claim_C5_witness :
    wrap_tokens [import_tok] 10 2 = some (Except.ok [[import_tok]]) ∧
    nonNl (textOf ([[import_tok]] : List (List Tok)).flatten) = nonNl (textOf [import_tok]) :=
  ⟨rfl, claim_C5_char_preservation [import_tok] 10 2 [[import_tok]] rfl⟩

/-! ### Tokens that fit are appended whole -/

/-- A run of non-line-break tokens whose total printable length still fits in
`width` (even exactly) is appended to the pending row token by token: no
split is invoked, each token is transferred unchanged. -/
theorem append_run (width : Int) :
    ∀ (r' queue row : List Tok) (rows : List (List Tok)) (count fuel : Nat),
      (∀ t ∈ r', t.text ≠ ['\n']) →
      (count : Int) + rowLen r' ≤ width →
      wrapLoop width (r'.length + fuel) (r' ++ queue) row rows count
        = wrapLoop width fuel queue (row ++ r') rows (count + rowLen r') := by
  intro r'
  induction r' with
  | nil =>
    intro queue row rows count fuel _ _
    simp [rowLen]
  | cons t r'' ih =>
    intro queue row rows count fuel hnl hle
    have hlen : (t :: r'').length + fuel = (r''.length + fuel) + 1 := by
      simp only [List.length_cons]
      omega
    rw [hlen]
    have hg : ¬((count : Int) + t.printable_length > width) := by
      rw [rowLen_cons] at hle
      push_cast at hle
      omega
    have hn : ¬t.text = ['\n'] := hnl t (by simp)
    rw [show (t :: r'') ++ queue = t :: (r'' ++ queue) from rfl]
    rw [wrapLoop_fit width (r''.length + fuel) t (r'' ++ queue) row rows count hg hn]
    rw [ih queue (row ++ [t]) rows (count + t.printable_length) fuel
      (fun x hx => hnl x (by simp [hx]))
      (by rw [rowLen_cons] at hle; push_cast at hle ⊢; omega)]
    rw [List.append_assoc, rowLen_cons]
    rw [show row ++ ([t] ++ r'') = row ++ (t :: r'') from rfl]
    rw [Nat.add_assoc]

/-- Claim C8: a token list with no line-break token whose total printable
length is at most `width` — in particular one that makes the counter reach
`width` exactly — is returned as a single row with every token appended
whole: no token is ever split when the counter does not strictly exceed
`width`. -/
theorem claim_C8_no_premature_split (tokens : List Tok) (width : Int)
    (h1 : (rowLen tokens : Int) ≤ width)
    (h2 : ∀ t ∈ tokens, t.text ≠ ['\n'])
    (h3 : tokens ≠ []) :
    wrap_tokens tokens width (tokens.length + 1) = some (Except.ok [tokens]) := by
  have hrun := append_run width tokens [] [] [] 0 1 h2 (by push_cast; omega)
  rw [List.append_nil] at hrun
  rw [wrap_tokens, hrun, wrapLoop_nil]
  have hne : ([] ++ tokens).isEmpty = false := by
    cases tokens with
    | nil => exact absurd rfl h3
    | cons a l => rfl
  rw [hne]
  rfl

/-! ### Structure of the rows produced by a terminating run -/

/-- No token of the list is the literal `"\n"` line-break. -/
def NoNl (r : List Tok) : Prop := ∀ t ∈ r, t.text ≠ ['\n']

/-- A row as closed by the wrap loop: some non-line-break tokens followed by
one `"\n"` token, within the width budget. -/
def ClosedRow (width : Int) (r : List Tok) : Prop :=
  ∃ r' t, r = r' ++ [t] ∧ NoNl r' ∧ t.text = ['\n'] ∧ (rowLen r : Int) ≤ width

/-- The possible final row, flushed without a closing line-break. -/
def OpenRow (width : Int) (r : List Tok) : Prop :=
  r ≠ [] ∧ NoNl r ∧ (rowLen r : Int) ≤ width

/-- The shape of a successful output: closed rows, optionally followed by one
open row. -/
def GoodOut (width : Int) (out : List (List Tok)) : Prop :=
  ∃ closed last, out = closed ++ last ∧ (∀ r ∈ closed, ClosedRow width r) ∧
    (last = [] ∨ ∃ r, last = [r] ∧ OpenRow width r)

/-- The newline discipline on queue tokens: each is either the plain `"\n"`
line-break token with printable length 0, or has newline-free text (empty
text only with printable length 0). -/
def QD (t : Tok) : Prop :=
  (t.text = ['\n'] ∧ t.printable_length = 0) ∨
  ('\n' ∉ t.text ∧ (t.text = [] → t.printable_length = 0))

theorem head_token_text_subset (token : Tok) (p : Nat) :
    ∀ c ∈ (head_token token p).text, c ∈ token.text := by
  intro c hc
  rcases List.mem_append.mp hc with hc | hc
  · exact List.take_subset _ _ hc
  · exact List.drop_subset _ _ ((List.takeWhile_sublist _).subset hc)

theorem tail_token_text_subset (token : Tok) (p : Nat) :
    ∀ c ∈ (tail_token token p).text, c ∈ token.text := by
  intro c hc
  exact List.drop_subset _ _ (List.drop_subset _ _ hc)

/-- Loop invariant giving the structure of the output rows, for disciplined
queues: every closed row ends in its only `"\n"` token and fits the width,
and at most one final open row remains. -/
theorem wrap_structure_inv (width : Int) (hw : 1 ≤ width) :
    ∀ (fuel : Nat) (queue row : List Tok) (rows out : List (List Tok))
      (count : Nat),
      (∀ t ∈ queue, QD t) →
      NoNl row →
      (count : Int) ≤ width →
      rowLen row = count →
      (∀ r ∈ rows, ClosedRow width r) →
      wrapLoop width fuel queue row rows count = some (Except.ok out) →
      GoodOut width out := by
  intro fuel
  induction fuel with
  | zero =>
    intro queue row rows out count _ _ _ _ _ h
    exact absurd h (by simp [wrapLoop])
  | succ fuel ih =>
    intro queue row rows out count hqd hnl hcw hrc hrows h
    cases queue with
    | nil =>
      rw [wrapLoop_nil] at h
      have hout : rows ++ (if row.isEmpty then [] else [row]) = out := by
        have := Option.some.inj h
        exact Except.ok.inj this
      refine ⟨rows, if row.isEmpty then [] else [row], hout.symm, hrows, ?_⟩
      by_cases hrow : row.isEmpty
      · rw [if_pos hrow]
        exact Or.inl rfl
      · rw [if_neg hrow]
        refine Or.inr ⟨row, rfl, ?_, hnl, ?_⟩
        · intro hcon
          rw [hcon] at hrow
          exact hrow rfl
        · rw [hrc]
          exact hcw
    | cons token rest =>
      by_cases hg : (count : Int) + token.printable_length > width
      · -- split branch
        rcases hqd token (by simp) with ⟨hln, hpl0⟩ | ⟨hnotin, hempty⟩
        · exact absurd hg (by rw [hpl0]; push_cast; omega)
        · have h0 : token.printable_length ≠ 0 := by
            intro hcon
            rw [hcon] at hg
            push_cast at hg
            omega
          have hpl1 : 1 ≤ token.printable_length := Nat.one_le_iff_ne_zero.mpr h0
          have htne : token.text ≠ [] := fun hcon => h0 (hempty hcon)
          have hv : ¬(width - (count : Int) < 0 ∨
              max 0 ((token.printable_length : Int) - 1) < width - (count : Int)) := by
            push_neg
            constructor
            · omega
            · have : width - (count : Int) ≤ (token.printable_length : Int) - 1 := by omega
              omega
          by_cases hh : (head_token token (width - (count : Int)).toNat).text = []
          · -- the stuck configuration: the loop never returns
            have hcat : token.text.take (width - (count : Int)).toNat ++
                (token.text.drop (width - (count : Int)).toNat).takeWhile isPySpace
                  = [] := hh
            rcases List.append_eq_nil.mp hcat with ⟨htake, hlead⟩
            have hp0 : (width - (count : Int)).toNat = 0 := by
              rcases List.take_eq_nil_iff.mp htake with hp0 | hcon
              · exact hp0
              · exact absurd hcon htne
            have hcweq : (count : Int) = width := by
              have := Int.toNat_of_nonneg (show 0 ≤ width - (count : Int) by omega)
              rw [hp0] at this
              omega
            have hlead' : token.text.takeWhile isPySpace = [] := by
              rw [hp0, List.drop_zero] at hlead
              exact hlead
            have := wrap_stuck width (fuel + 1) token rest row rows count
              hcweq hlead' hpl1 htne
            rw [this] at h
            exact absurd h (by simp)
          · -- a genuine head is appended and the tail re-queued
            have hsplit : split_token token (width - count) = Except.ok
                (head_token token (width - (count : Int)).toNat :: newline_token ::
                  (if (tail_token token (width - (count : Int)).toNat).text = []
                   then [] else [tail_token token (width - (count : Int)).toNat])) := by
              rw [split_token_of_pos token _ hv h0, filter_split_parts, if_neg hh]
              rfl
            rw [wrapLoop_split width fuel token rest row rows count _ _ hg hsplit] at h
            have hhd : (head_token token (width - (count : Int)).toNat).printable_length
                ≤ (width - (count : Int)).toNat := printableLen_take_le _ _
            have htn : (((width - (count : Int)).toNat : Nat) : Int) = width - count :=
              Int.toNat_of_nonneg (by omega)
            refine ih _ _ rows out _ ?_ ?_ ?_ ?_ hrows h
            · -- queue discipline is preserved
              intro t ht
              rw [List.mem_append, List.mem_cons] at ht
              rcases ht with (rfl | ht) | ht
              · exact Or.inl ⟨rfl, rfl⟩
              · by_cases hte : (tail_token token (width - (count : Int)).toNat).text = []
                · rw [if_pos hte] at ht
                  exact absurd ht (by simp)
                · rw [if_neg hte, List.mem_singleton] at ht
                  subst ht
                  refine Or.inr ⟨?_, fun hcon => absurd hcon hte⟩
                  intro hcon
                  exact hnotin (tail_token_text_subset token _ '\n' hcon)
              · exact hqd t (List.mem_cons_of_mem _ ht)
            · -- the pending row still has no line-break token
              intro t ht
              rw [List.mem_append, List.mem_singleton] at ht
              rcases ht with ht | rfl
              · exact hnl t ht
              · intro hcon
                have h5 : '\n' ∈ (head_token token (width - (count : Int)).toNat).text := by
                  rw [hcon]
                  simp
                exact hnotin (head_token_text_subset token _ '\n' h5)
            · push_cast
              omega
            · rw [rowLen_append, rowLen_singleton, hrc]
      · by_cases hn : token.text = ['\n']
        · rw [wrapLoop_close width fuel token rest row rows count hg hn] at h
          refine ih rest [] (rows ++ [row ++ [token]]) out 0
            (fun t ht => hqd t (by simp [ht])) (by intro t ht; simp at ht)
            (by omega) rfl ?_ h
          intro r hr
          rcases List.mem_append.mp hr with hr | hr
          · exact hrows r hr
          · have : r = row ++ [token] := by simpa using hr
            rw [this]
            refine ⟨row, token, rfl, hnl, hn, ?_⟩
            rw [rowLen_append, rowLen_singleton, hrc]
            omega
        · rw [wrapLoop_fit width fuel token rest row rows count hg hn] at h
          refine ih rest (row ++ [token]) rows out (count + token.printable_length)
            (fun t ht => hqd t (by simp [ht])) ?_ (by omega) ?_ hrows h
          · intro t ht
            rcases List.mem_append.mp ht with ht | ht
            · exact hnl t ht
            · have : t = token := by simpa using ht
              rw [this]
              exact hn
          · rw [rowLen_append, rowLen_singleton, hrc]

/-- Re-wrapping a list of closed rows reproduces them one by one: within a
row nothing exceeds the width, so no split fires, and the trailing `"\n"`
closes the row exactly where it was closed before. -/
theorem rewrap_closed (width : Int) :
    ∀ (closed rows0 : List (List Tok)) (tailq : List Tok) (fuel : Nat),
      (∀ r ∈ closed, ClosedRow width r) →
      wrapLoop width (closed.flatten.length + fuel) (closed.flatten ++ tailq) [] rows0 0
        = wrapLoop width fuel tailq [] (rows0 ++ closed) 0 := by
  intro closed
  induction closed with
  | nil =>
    intro rows0 tailq fuel _
    simp
  | cons r closed' ih =>
    intro rows0 tailq fuel hcl
    obtain ⟨r', t, hr, hnl', ht, hlen⟩ := hcl r (by simp)
    have hlenr : rowLen r' + t.printable_length = rowLen r := by
      rw [hr, rowLen_append, rowLen_singleton]
    have h6 : ((rowLen r' + t.printable_length : Nat) : Int) ≤ width := by
      rw [hlenr]
      exact_mod_cast hlen
    have hfl : (r :: closed').flatten = r ++ closed'.flatten := by simp
    rw [hfl, hr]
    have hq : ((r' ++ [t]) ++ closed'.flatten) ++ tailq
        = r' ++ (t :: (closed'.flatten ++ tailq)) := by
      simp [List.append_assoc]
    rw [hq]
    have hfuel : ((r' ++ [t]) ++ closed'.flatten).length + fuel
        = r'.length + ((closed'.flatten.length + fuel) + 1) := by
      simp only [List.length_append, List.length_cons, List.length_nil]
      omega
    rw [hfuel]
    have hle : (0 : Int) + rowLen r' ≤ width := by
      push_cast at h6 ⊢
      omega
    rw [append_run width r' (t :: (closed'.flatten ++ tailq)) [] rows0 0
      ((closed'.flatten.length + fuel) + 1) hnl' hle]
    have hg : ¬(((0 + rowLen r' : Nat) : Int) + t.printable_length > width) := by
      push_cast at h6 ⊢
      omega
    rw [wrapLoop_close width (closed'.flatten.length + fuel) t
      (closed'.flatten ++ tailq) ([] ++ r') rows0 (0 + rowLen r') hg ht]
    rw [show ([] ++ r') ++ [t] = r' ++ [t] from by simp]
    rw [ih (rows0 ++ [r' ++ [t]]) tailq fuel (fun x hx => hcl x (by simp [hx]))]
    rw [List.append_assoc]
    rfl

/-- Re-wrapping the flattened output of a well-shaped run reproduces the rows
exactly, with just enough fuel for one pass. -/
theorem rewrap_good (width : Int) (out : List (List Tok)) (hgo : GoodOut width out) :
    wrapLoop width (out.flatten.length + 1) out.flatten [] [] 0
      = some (Except.ok out) := by
  obtain ⟨closed, last, rfl, hcl, hlast⟩ := hgo
  rw [List.flatten_append]
  have hfuel : (closed.flatten ++ last.flatten).length + 1
      = closed.flatten.length + (last.flatten.length + 1) := by
    simp only [List.length_append]
    omega
  rw [hfuel, rewrap_closed width closed [] last.flatten (last.flatten.length + 1) hcl]
  rcases hlast with rfl | ⟨r, rfl, hne, hnl', hlen⟩
  · rw [show (([] : List (List Tok))).flatten = ([] : List Tok) from rfl, wrapLoop_nil]
    simp
  · have hflr : ([r] : List (List Tok)).flatten = r := by simp
    rw [hflr]
    have hle : (0 : Int) + rowLen r ≤ width := by
      omega
    have har := append_run width r [] [] ([] ++ closed) 0 1 hnl' hle
    rw [List.append_nil] at har
    rw [har, wrapLoop_nil]
    have hre : ([] ++ r).isEmpty = false := by
      cases r with
      | nil => exact absurd rfl hne
      | cons a l => rfl
    rw [hre]
    simp

/-- Claim C9 as amended: idempotence of `wrap_tokens` holds for inputs whose
tokens each either are the plain line-break token (text `"\n"`, printable
length 0) or have newline-free text (empty text only with printable length
0): re-wrapping the flattened output at the same width reproduces exactly
the same rows. -/
theorem claim_C9_amended (tokens : List Tok) (width : Int) (fuel : Nat)
    (rows : List (List Tok)) (hw : 1 ≤ width)
    (hq : ∀ t ∈ tokens, QD t)
    (h : wrap_tokens tokens width fuel = some (Except.ok rows)) :
    wrap_tokens rows.flatten width (rows.flatten.length + 1)
      = some (Except.ok rows) := by
  have hgood := wrap_structure_inv width hw fuel tokens [] [] rows 0 hq
    (by intro t ht; exact absurd ht (by simp)) (by omega) rfl (by simp) h
  exact rewrap_good width rows hgood

/-- Witness for the amended claim C9 at `wrap_tokens([import_tok], 10)`. -/
theorem claim_C9_witness :
    wrap_tokens [import_tok] 10 2 = some (Except.ok [[import_tok]]) ∧
    wrap_tokens ([[import_tok]] : List (List Tok)).flatten 10
      (([[import_tok]] : List (List Tok)).flatten.length + 1)
      = some (Except.ok [[import_tok]]) :=
  ⟨rfl, claim_C9_amended [import_tok] 10 2 [[import_tok]] (by norm_num)
    (fun t ht => by
      rw [List.mem_singleton] at ht
      subst ht
      exact Or.inr ⟨by decide, by decide⟩) rfl⟩

/-- A token whose text embeds a newline before further characters; its
printable length is 2 because `rstrip("\r\n")` only strips trailing
characters. -/
def embedded_newline_tok : Tok := ⟨['\n', 'a'], "c0", "regular", "Name", 2⟩

/-- Claim C9 counterexample: wrapping `[embedded_newline_tok]` at width 1
produces two rows, but re-wrapping the flattened output at the same width
produces three rows — the row boundaries are not reproduced.  The split head
`"\n"` is appended mid-row without closing it, and on the second pass that
same token closes a row immediately. -/
theorem claim_C9_cex :
    wrap_tokens [embedded_newline_tok] 1 5 = some (Except.ok
      [[⟨['\n'], "c0", "regular", "Name", 0⟩, newline_token],
       [⟨['a'], "c0", "regular", "Name", 1⟩]]) ∧
    wrap_tokens ([[⟨['\n'], "c0", "regular", "Name", 0⟩, newline_token],
       [⟨['a'], "c0", "regular", "Name", 1⟩]] : List (List Tok)).flatten 1 5
      = some (Except.ok
      [[⟨['\n'], "c0", "regular", "Name", 0⟩], [newline_token],
       [⟨['a'], "c0", "regular", "Name", 1⟩]]) ∧
    ([[⟨['\n'], "c0", "regular", "Name", 0⟩, newline_token],
      [⟨['a'], "c0", "regular", "Name", 1⟩]] : List (List Tok))
      ≠ [[⟨['\n'], "c0", "regular", "Name", 0⟩], [newline_token],
         [⟨['a'], "c0", "regular", "Name", 1⟩]] :=
  ⟨rfl, rfl, by decide⟩

/-- The `class C:` token row from the test suite; its printable lengths sum
to exactly 8. -/
def class_tokens : List Tok :=
  [⟨"class".toList, "66d9ef", "regular", "Keyword", 5⟩,
   ⟨[' '], "f8f8f2", "regular", "Text.Whitespace", 1⟩,
   ⟨['C'], "a6e22e", "regular", "Name.Class", 1⟩,
   ⟨[':'], "f8f8f2", "regular", "Punctuation", 1⟩]

/-- Witness for claim C8: the `class C:` row reaches width 8 exactly and is
returned whole, unsplit. -/
theorem claim_C8_witness :
    (rowLen class_tokens : Int) = 8 ∧
    wrap_tokens class_tokens 8 (class_tokens.length + 1)
      = some (Except.ok [class_tokens]) :=
  ⟨by decide,
   claim_C8_no_premature_split class_tokens 8 (by decide) (by decide) (by decide)⟩

end LineWrapper
